import Mathlib

/-!
# cloudokyo/log: stack-frame filter, context carrier and argument classifier

A shallow embedding of `stacktrace.go`, `context.go` and `logger.go`.

Go strings are embedded as Lean `String`s and every library routine the
source calls on them (`strings.Index`, `strings.Contains`, `strings.Split`,
`strings.TrimSuffix`) is written out over the underlying character list.
All separators the source uses are ASCII literals, so scanning characters
and scanning bytes find the same positions.
-/

set_option autoImplicit false

namespace CloudokyoLog

/-! ## Go `strings` routines used by the source -/

/-- The scan of `strings.Index`: the offset (counted from `i`) of the first
position at which `sep` starts, `-1` when there is none. -/
def indexFrom (sep : List Char) : List Char → Nat → Int
  | [], i => if sep.isPrefixOf [] then (i : Int) else -1
  | c :: cs, i => if sep.isPrefixOf (c :: cs) then (i : Int) else indexFrom sep cs (i + 1)

/-- Go `strings.Index(s, sep)`. -/
def stringsIndex (s sep : String) : Int :=
  indexFrom sep.data s.data 0

/-- Go `strings.Contains(s, sep)`, which is `strings.Index(s, sep) >= 0`. -/
def stringsContains (s sep : String) : Bool :=
  decide (0 ≤ stringsIndex s sep)

/-- The scan of `strings.Split` for a non-empty separator: `cur` holds the
current piece in reverse, `skip` counts the characters of a separator that
was just matched and still have to be passed over. -/
def splitGo (sep : List Char) : List Char → Nat → List Char → List (List Char)
  | [], _, cur => [cur.reverse]
  | _ :: cs, skip + 1, cur => splitGo sep cs skip cur
  | c :: cs, 0, cur =>
    if sep.isPrefixOf (c :: cs) then cur.reverse :: splitGo sep cs (sep.length - 1) []
    else splitGo sep cs 0 (c :: cur)

/-- Go `strings.Split(s, sep)` for a non-empty `sep` (the source only passes
the literals `"/"` and `")."`). -/
def stringsSplit (s sep : String) : List String :=
  (splitGo sep.data s.data 0 []).map String.mk

/-- Go `strings.TrimSuffix(s, suffix)`. -/
def stringsTrimSuffix (s suffix : String) : String :=
  if suffix.data.isSuffixOf s.data then
    String.mk (s.data.take (s.data.length - suffix.data.length))
  else s

/-! ## `stacktrace.go` -/

/-- Source `funcname` (stacktrace.go:110-117). -/
def funcname (name : String) : String :=
  let chunks := stringsSplit name ")."
  let count := chunks.length
  if count > 0 then chunks.getD (count - 1) "" else name

/-- The `for i := count - 2; i >= 0; i--` loop of `pkgname`
(stacktrace.go:131-139) followed by the fallback of line 141:
`pkgnameLoop chunks (i + 1)` is the loop standing at index `i`. -/
def pkgnameLoop (chunks : List String) : Nat → String
  | 0 => "main"
  | i + 1 =>
    let val := chunks.getD i ""
    if val = "" then pkgnameLoop chunks i
    else if stringsContains val "." then pkgnameLoop chunks i
    else val

/-- Source `pkgname` (stacktrace.go:127-145). -/
def pkgname (filePath : String) : String :=
  let chunks := stringsSplit filePath "/"
  let count := chunks.length
  if count > 1 then pkgnameLoop chunks (count - 1)
  else stringsTrimSuffix filePath ".go"

/-- One frame of a captured call stack, as `frameField` reads it: `file` is
what the verb `s` leaves in the state (the full path: `Flag` answers true
and `Write` keeps the last chunk written), `line` what `d` prints, `name`
what `n` prints. -/
structure Frame where
  file : String
  line : Nat
  name : String
  deriving DecidableEq

/-- A Go error value, by the two capabilities `MarshalStack` asks for:
`StackTrace()` and `Unwrap() error`. -/
inductive GoError where
  /-- neither capability (`errors.New` of the standard library) -/
  | plain (msg : String)
  /-- has `Unwrap`, which returns nil -/
  | wrapNil (msg : String)
  /-- has `Unwrap`, which returns `inner` -/
  | wrap (msg : String) (inner : GoError)
  /-- has `StackTrace` and no `Unwrap` (`errors.New` of pkg/errors) -/
  | fundamental (msg : String) (stack : List Frame)
  /-- has `StackTrace` and `Unwrap` (`errors.WithStack` of pkg/errors) -/
  | withStack (inner : GoError) (stack : List Frame)
  deriving DecidableEq

/-- The type assertion `err.(stackTracer)` followed by `StackTrace()`. -/
def GoError.StackTrace : GoError → Option (List Frame)
  | .fundamental _ st => some st
  | .withStack _ st => some st
  | _ => none

/-- The type assertion to `interface { Unwrap() error }` followed by
`Unwrap()`: `none` when the assertion fails, `some none` when `Unwrap`
returns nil. -/
def GoError.Unwrap : GoError → Option (Option GoError)
  | .wrapNil _ => some none
  | .wrap _ inner => some (some inner)
  | .withStack inner _ => some (some inner)
  | _ => none

/-- The chain-walking loop of `MarshalStack` (stacktrace.go:49-66), entered
with a non-nil error: the frame list of the error the loop breaks at, or
`none` where the source returns nil. -/
def walkChain : GoError → Option (List Frame)
  | .fundamental _ st => some st
  | .withStack _ st => some st
  | .plain _ => none
  | .wrapNil _ => none
  | .wrap _ inner => walkChain inner

/-- The line `fmt.Sprintf("%s.%s:%s:%s", pkg, fn, file, line)`. -/
def renderFrame (frame : Frame) : String :=
  pkgname frame.file ++ "." ++ funcname frame.name ++ ":" ++ frame.file ++ ":"
    ++ Nat.repr frame.line

/-- The frame loop of `MarshalStack` (stacktrace.go:83-100); `out` is the
slice built so far. -/
def frameLoop : List Frame → List String → List String
  | [], out => out
  | frame :: rest, out =>
    let file := frame.file
    let pkg := pkgname file
    if pkg = "log" then frameLoop rest out
    else if stringsIndex file "net/http" > 0 ∨ stringsIndex file "labstack/echo" > 0 then
      frameLoop rest out
    else frameLoop rest (out ++ [renderFrame frame])

/-- Lines 68-101 of `MarshalStack`: drop the last frame, then run the frame
loop. -/
def marshalFrames (st : List Frame) : List String :=
  let st := if st.length > 0 then st.take (st.length - 1) else st
  frameLoop st []

/-- Source `MarshalStack` (stacktrace.go:43-102). The argument is `none` for
a nil error; the result is `none` for the nil interface and `some out` for
the string slice. -/
def MarshalStack (err : Option GoError) : Option (List String) :=
  match err with
  | none => none
  | some e => (walkChain e).map marshalFrames

/-- The errors of a chain in unwrap order: the error itself, what its
`Unwrap` returns, and so on, up to an error without `Unwrap` or whose
`Unwrap` returns nil. -/
def GoError.chain : GoError → List GoError
  | .plain msg => [.plain msg]
  | .wrapNil msg => [.wrapNil msg]
  | .wrap msg inner => .wrap msg inner :: inner.chain
  | .fundamental msg st => [.fundamental msg st]
  | .withStack inner st => .withStack inner st :: inner.chain

/-- The chain of a possibly nil error. -/
def chainOf : Option GoError → List GoError
  | none => []
  | some e => e.chain

/-- Whether an error is frame-carrying: it exposes `StackTrace`. -/
def GoError.isTraced (e : GoError) : Bool := e.StackTrace.isSome

/-- The frame list of the outermost frame-carrying error of a chain, the
first one in unwrap order. -/
def outermostFrames (e : GoError) : Option (List Frame) :=
  (e.chain.find? GoError.isTraced).bind GoError.StackTrace

/-- The frame list of the innermost frame-carrying error of a chain, the
last one in unwrap order. -/
def innermostFrames (e : GoError) : Option (List Frame) :=
  (e.chain.reverse.find? GoError.isTraced).bind GoError.StackTrace

/-- The frames the filter is meant to keep: the derived package is not
`"log"` and the file path contains neither denylisted substring. -/
def Frame.wanted (f : Frame) : Bool :=
  decide (pkgname f.file ≠ "log") && !decide ("net/http".data <:+: f.file.data)
    && !decide ("labstack/echo".data <:+: f.file.data)

/-- The test the frame loop applies (stacktrace.go:90 and 95), negated: the
frames the loop renders. -/
def Frame.kept (f : Frame) : Bool :=
  decide (pkgname f.file ≠ "log") &&
    !decide (stringsIndex f.file "net/http" > 0 ∨ stringsIndex f.file "labstack/echo" > 0)

/-- A sample stack: a caller frame, a frame of the logging package, a frame
of the web framework and the runtime's entry frame. -/
def sampleFrames : List Frame :=
  [⟨"/app/service/user.go", 42, "(*service).Add"⟩,
   ⟨"/app/log/logger.go", 323, "Log"⟩,
   ⟨"/go/pkg/mod/github.com/labstack/echo/v4@v4.12.0/echo.go", 7, "(*Echo).ServeHTTP"⟩,
   ⟨"/usr/local/go/src/runtime/asm_amd64.s", 1650, "goexit"⟩]

/-- A chain with two frame-carrying errors: `errors.WithStack` applied to an
error made by `errors.New` of pkg/errors. -/
def nestedTraced : GoError :=
  .withStack
    (.fundamental "boom"
      [⟨"/app/repo/store.go", 42, "(*store).Load"⟩,
       ⟨"/usr/local/go/src/runtime/asm_amd64.s", 1650, "goexit"⟩])
    [⟨"/app/service/handler.go", 17, "(*handler).Serve"⟩,
     ⟨"/usr/local/go/src/runtime/asm_amd64.s", 1650, "goexit"⟩]

/-- A stack whose first frame is a standard-library HTTP frame of a binary
built with trimmed paths: the file path starts with `net/http`. -/
def trimmedHttpFrames : List Frame :=
  [⟨"net/http/server.go", 2009, "(*conn).serve"⟩,
   ⟨"runtime/asm_amd64.s", 1650, "goexit"⟩]

/-- A stack whose first frame is a frame of the logging package, read from
the module cache: its directory is `log@v1.0.0`. -/
def moduleCacheFrames : List Frame :=
  [⟨"/go/pkg/mod/github.com/cloudokyo/log@v1.0.0/logger.go", 323, "Log"⟩,
   ⟨"/app/main.go", 12, "main"⟩,
   ⟨"/usr/local/go/src/runtime/proc.go", 271, "main"⟩]

/-! ## `context.go` -/

/-- A key of the propagation context: a value of the package's own type
`Key`, or a key of any other type (Go compares keys with their type). -/
inductive CtxKey where
  | logKey (s : String)
  | foreign (s : String)
  deriving DecidableEq

/-- Source constant `ContextKey = Key("logger")`. -/
def ContextKey : CtxKey := .logKey "logger"

/-- Source constant `RequestKey`. -/
def RequestKey : String := "id"

/-- A value stored in the propagation context: a `ContextData`, which is a
Go map and hence a reference (`none` is the nil map, `some r` the map at
address `r`), or a value of any other type. -/
inductive CtxVal where
  | data (ref : Option Nat)
  | foreign (tag : String)
  deriving DecidableEq

/-- Go `context.Context`, by what `Value` observes: the background context
or a derivation that adds one key. -/
inductive Context where
  | background
  | withValue (parent : Context) (key : CtxKey) (val : CtxVal)
  deriving DecidableEq

/-- Go `ctx.Value(key)`: the nearest binding of `key` up the lineage. -/
def Context.Value : Context → CtxKey → Option CtxVal
  | .background, _ => none
  | .withValue parent k v, key => if k = key then some v else parent.Value key

/-- A Go value of static type `any`, by the cases the type switches of
`Log` and `Logf` distinguish. `errCtx` is a value whose type implements both
`error` and `context.Context`; `pbool none` is a nil `*bool`. -/
inductive Value where
  | str (s : String)
  | err (e : GoError)
  | errCtx (e : GoError) (c : Context)
  | ctx (c : Context)
  | bool (b : Bool)
  | pbool (p : Option Bool)
  | nil
  | int (i : Int)
  | other (tag : String)
  deriving DecidableEq

/-- The contents of a `ContextData` map: its entries, keys pairwise
distinct. -/
abbrev ContextData := List (String × Value)

/-- The map assignment `data[key] = value`. -/
def ContextData.assign : ContextData → String → Value → ContextData
  | [], key, value => [(key, value)]
  | (k, v) :: rest, key, value =>
    if k = key then (k, value) :: rest else (k, v) :: ContextData.assign rest key value

/-- The map read `value, ok := data[key]`. -/
def ContextData.get : ContextData → String → Option Value
  | [], _ => none
  | (k, v) :: rest, key => if k = key then some v else ContextData.get rest key

/-- The maps allocated so far, by address. -/
abbrev Heap := List ContextData

/-- Source `Detach` (context.go:137-142): the map stored under `ContextKey`
when the stored value is a `ContextData`, nil otherwise. -/
def Detach (ctx : Context) : Option Nat :=
  match ctx.Value ContextKey with
  | some (.data ref) => ref
  | _ => none

/-- The entries of the map a `Detach` result refers to (none for nil). -/
def Heap.deref (h : Heap) : Option Nat → ContextData
  | none => []
  | some r => h.getD r []

/-- Source `WithValue` (context.go:74-86). A nil `Detach` result allocates
the map `ContextData{}` at a fresh address; the assignment `data[key] = value`
then writes through the reference; the result is the heap after the call
and the derived context. -/
def WithValue (h : Heap) (ctx : Context) (key : String) (value : Value) : Heap × Context :=
  match Detach ctx with
  | none =>
    (h ++ [ContextData.assign [] key value],
      .withValue ctx ContextKey (.data (some h.length)))
  | some r =>
    (h.set r (ContextData.assign (h.getD r []) key value),
      .withValue ctx ContextKey (.data (some r)))

/-- The base context `B = WithValue(context.Background(), "x", 0)` with the
heap after the call. -/
def derivedBase : Heap × Context :=
  WithValue [] .background "x" (.int 0)

/-- The derivation `c1 = WithValue(B, "a", 1)` with the heap after the call. -/
def derivedFirst : Heap × Context :=
  WithValue derivedBase.1 derivedBase.2 "a" (.int 1)

/-- The derivation `c2 = WithValue(B, "b", 2)`, made after `c1`, with the heap
after the call. -/
def derivedSecond : Heap × Context :=
  WithValue derivedFirst.1 derivedBase.2 "b" (.int 2)

/-- Modelled from the spec: `cast.ToString` of the external library
`github.com/cloudokyo/cast`, the "generic stringification" of a value. A Go
string is returned as it is; `other` stands for what the library prints for
every other value. -/
def castToString (other : Value → String) : Value → String
  | .str s => s
  | v => other v

/-- Source `ContextData.IsEmpty` (context.go:40-42). -/
def ContextData.IsEmpty (c : ContextData) : Bool :=
  c.length == 0

/-- The `for k, v := range c` loop of `ContextData.String` (context.go:56-63);
the list holds the entries in the order the map iteration visits them, which
the Go runtime picks, and `output` is the buffer so far (`output.Len()`
counts bytes). -/
def ContextData.stringLoop (other : Value → String) : ContextData → String → String
  | [], output => output
  | (k, v) :: rest, output =>
    let output := if output.utf8ByteSize > 1 then output ++ " " else output
    ContextData.stringLoop other rest (output ++ k ++ "=" ++ castToString other v)

/-- Source `ContextData.String` (context.go:48-67), for the carrier whose
entries the map iteration visits in the order of the list `c`. -/
def ContextData.String (other : Value → String) (c : ContextData) : String :=
  if c.IsEmpty then ""
  else ContextData.stringLoop other c ""

/-- Go `strings.Join(elems, sep)`. -/
def stringsJoin : List String → String → String
  | [], _ => ""
  | [a], _ => a
  | a :: b :: rest, sep => a ++ sep ++ stringsJoin (b :: rest) sep

/-- The rendering claim C16 describes: the entries, each as
`key + "=" + stringified value`, joined by one space. -/
def joinedEntries (other : Value → String) (c : ContextData) : String :=
  stringsJoin (c.map (fun kv => kv.1 ++ "=" ++ castToString other kv.2)) " "

/-- Source `RequestId` (context.go:149-157), read in the heap `h`. -/
def RequestId (other : Value → String) (h : Heap) (ctx : Context) : String :=
  let data := h.deref (Detach ctx)
  if data.length = 0 then ""
  else
    match data.get RequestKey with
    | some value => castToString other value
    | none => ""

/-- The map a context refers to exists in the heap: every reference a Go
program holds is one. -/
def Heap.holds (h : Heap) (ctx : Context) : Prop :=
  ∀ r, Detach ctx = some r → r < h.length

/-- A carrier with the empty key and a value that prints as the empty
string, visited first. -/
def emptyKeyCarrier : ContextData :=
  [("", .str ""), ("a", .str "b")]

/-- The carrier `\x7b"k1": "v1", "k2": "v2"\x7d` visited in one order. -/
def twoEntries : ContextData :=
  [("k1", .str "v1"), ("k2", .str "v2")]

/-- The same carrier visited in the other order. -/
def twoEntriesSwapped : ContextData :=
  [("k2", .str "v2"), ("k1", .str "v1")]

/-! ## `logger.go` -/

/-- Source constant `MSG`. -/
def MSG : String := "msg"

/-- Source constant `ANY`. -/
def ANY : String := "any"

/-- The default of `zerolog.ErrorFieldName`. -/
def ErrorFieldName : String := "error"

/-- The string arguments of an argument list, in call order. -/
def stringArgs : List Value → List String
  | [] => []
  | .str s :: rest => s :: stringArgs rest
  | _ :: rest => stringArgs rest

/-- The severities of the entry points. -/
inductive Level where
  | trace | debug | info | warn | error | panic | fatal
  deriving DecidableEq

/-- One insertion into an event. -/
inductive Field where
  /-- `event.Err(err)` -/
  | err (e : GoError)
  /-- `event.AnErr(key, err)` -/
  | anErr (key : String) (e : GoError)
  /-- `event.Fields(data)` with the entries the map held at the call -/
  | fields (data : ContextData)
  /-- `event.Any(key, value)` -/
  | any (key : String) (value : Value)
  /-- `event.Str(key, value)` -/
  | str (key : String) (value : String)
  /-- `event.Msgf(format, values...)` -/
  | msgf (format : String) (values : List Value)
  deriving DecidableEq

/-- Modelled from the spec: the event of the external logging engine (zerolog,
not part of this repository), "an accumulating structured record: a set of
field insertions plus an optional single message string", with the engine's
forced-stack-capture toggle, its context slot and its caller-location
override. An `Event` is an enabled event. -/
structure Event where
  level : Level
  stack : Bool
  ctx : Option Context
  callerSkip : Nat
  fields : List Field
  deriving DecidableEq

/-- The engine's `event.Stack()`. -/
def Event.Stack (e : Event) : Event := { e with stack := true }

/-- The engine's `event.Ctx(ctx)`. -/
def Event.Ctx (e : Event) (c : Context) : Event := { e with ctx := some c }

/-- An insertion appends to the record. -/
def Event.add (e : Event) (f : Field) : Event := { e with fields := e.fields ++ [f] }

/-- The engine's `event.CallerSkipFrame(n)`. -/
def Event.CallerSkipFrame (e : Event) (n : Nat) : Event :=
  { e with callerSkip := e.callerSkip + n }

/-- What the code reads from outside its arguments: the package variable
`LogStack` and the call stack pkg/errors captures inside `Log` or `Logf`. -/
structure Env where
  LogStack : Bool
  callers : List Frame
  deriving DecidableEq

/-- The error case of `Log` (logger.go:316-325). -/
def logError (env : Env) (event : Event) (value : GoError) : Event :=
  let event := if env.LogStack then event.Stack else event
  let err := GoError.withStack value env.callers
  (event.add (.err err)).add (.anErr ErrorFieldName err)

/-- One turn of the type switch of `Log` (logger.go:313-341): the event and
the message parts after the argument, `none` when the turn panics (the
dereference of a nil `*bool`). -/
def logArg (env : Env) (h : Heap) (event : Event) (msgs : List String) :
    Value → Option (Event × List String)
  | .str value => some (event, msgs ++ [value])
  | .err value => some (logError env event value, msgs)
  | .errCtx value _ => some (logError env event value, msgs)
  | .ctx value =>
    let event := event.Ctx value
    let data := h.deref (Detach value)
    some (if data.length > 0 then event.add (.fields data) else event, msgs)
  | .bool value => some (if value then event.Stack else event, msgs)
  | .pbool none => none
  | .pbool (some value) => some (if value then event.Stack else event, msgs)
  | value => some (event.add (.any ANY value), msgs)

/-- The `for _, arg := range args` loop of `Log`. -/
def logLoop (env : Env) (h : Heap) : List Value → Event → List String →
    Option (Event × List String)
  | [], event, msgs => some (event, msgs)
  | arg :: rest, event, msgs =>
    match logArg env h event msgs arg with
    | none => none
    | some (event, msgs) => logLoop env h rest event msgs

/-- Source `Log` (logger.go:310-349): the returned event, `none` when the
call panics. -/
def Log (env : Env) (h : Heap) (event : Event) (args : List Value) : Option Event :=
  match logLoop env h args event [] with
  | none => none
  | some (event, msgs) =>
    some (if msgs.length > 0 then event.add (.str MSG (stringsJoin msgs " ")) else event)

/-- The error case of `Logf` (logger.go:367-371); `errors.Wrap(value, "")`
is a stack holder around a message holder around `value`. -/
def logfError (env : Env) (event : Event) (value : GoError) : Event :=
  let err := GoError.withStack (GoError.wrap "" value) env.callers
  (event.add (.err err)).add (.anErr ErrorFieldName err)

/-- One turn of the type switch of `Logf` (logger.go:366-378): the event and
the format arguments after the argument. -/
def logfArg (env : Env) (h : Heap) (event : Event) (values : List Value) :
    Value → Event × List Value
  | .err value => (logfError env event value, values ++ [.err value])
  | .errCtx value c => (logfError env event value, values ++ [.errCtx value c])
  | .ctx value =>
    match Detach value with
    | none => (event, values)
    | some r => (event.add (.fields (h.deref (some r))), values)
  | value => (event, values ++ [value])

/-- The `for _, arg := range args` loop of `Logf`. -/
def logfLoop (env : Env) (h : Heap) : List Value → Event → List Value → Event × List Value
  | [], event, values => (event, values)
  | arg :: rest, event, values =>
    let r := logfArg env h event values arg
    logfLoop env h rest r.1 r.2

/-- Source `Logf` (logger.go:361-383): the event as it is sent. -/
def Logf (env : Env) (h : Heap) (event : Event) (format : String) (args : List Value) : Event :=
  let r := logfLoop env h args event []
  (r.1.CallerSkipFrame 2).add (.msgf format r.2)

/-- Modelled from the spec: the engine's per-severity event constructors
(`std.Trace()`, ..., `std.Fatal()`), a fresh event with no insertion and
stack capture off. -/
def stdEvent (level : Level) : Event :=
  { level := level, stack := false, ctx := none, callerSkip := 0, fields := [] }

/-- Source `Trace`. -/
def Trace (env : Env) (h : Heap) (v : List Value) : Option Event :=
  Log env h (stdEvent .trace) v

/-- Source `Tracef`. -/
def Tracef (env : Env) (h : Heap) (format : String) (v : List Value) : Event :=
  Logf env h (stdEvent .trace) format v

/-- Source `Debug`. -/
def Debug (env : Env) (h : Heap) (v : List Value) : Option Event :=
  Log env h (stdEvent .debug) v

/-- Source `Debugf`. -/
def Debugf (env : Env) (h : Heap) (format : String) (v : List Value) : Event :=
  Logf env h (stdEvent .debug) format v

/-- Source `Info`. -/
def Info (env : Env) (h : Heap) (v : List Value) : Option Event :=
  Log env h (stdEvent .info) v

/-- Source `Infof`. -/
def Infof (env : Env) (h : Heap) (format : String) (v : List Value) : Event :=
  Logf env h (stdEvent .info) format v

/-- Source `Warn`. -/
def Warn (env : Env) (h : Heap) (v : List Value) : Option Event :=
  Log env h (stdEvent .warn) v

/-- Source `Warnf`. -/
def Warnf (env : Env) (h : Heap) (format : String) (v : List Value) : Event :=
  Logf env h (stdEvent .warn) format v

/-- Source `Error`. -/
def Error (env : Env) (h : Heap) (v : List Value) : Option Event :=
  Log env h (stdEvent .error) v

/-- Source `Errorf`. -/
def Errorf (env : Env) (h : Heap) (format : String) (v : List Value) : Event :=
  Logf env h (stdEvent .error) format v

/-- Source `Panic`. -/
def Panic (env : Env) (h : Heap) (v : List Value) : Option Event :=
  Log env h (stdEvent .panic).Stack v

/-- Source `Panicf`. -/
def Panicf (env : Env) (h : Heap) (format : String) (v : List Value) : Event :=
  Logf env h (stdEvent .panic) format v

/-- Source `Fatal`. -/
def Fatal (env : Env) (h : Heap) (v : List Value) : Option Event :=
  Log env h (stdEvent .fatal).Stack v

/-- Source `Fatalf`. -/
def Fatalf (env : Env) (h : Heap) (format : String) (v : List Value) : Event :=
  Logf env h (stdEvent .fatal) format v

/-- Whether an argument takes the `error` case of the type switches. -/
def Value.isError : Value → Bool
  | .err _ => true
  | .errCtx _ _ => true
  | _ => false

/-- Whether an argument is a context handle (implements `context.Context`). -/
def Value.isContext : Value → Bool
  | .ctx _ => true
  | .errCtx _ _ => true
  | _ => false

/-- Whether an argument is a false boolean, plain or pointed-to. -/
def Value.isFalseFlag : Value → Bool
  | .bool false => true
  | .pbool (some false) => true
  | _ => false

/-- The format arguments `Logf` hands to `Msgf`: the `values` slice after the
argument loop. -/
def formatValues (env : Env) (h : Heap) (event : Event) (args : List Value) : List Value :=
  (logfLoop env h args event []).2

/-! ## Facts about the `strings` routines -/

theorem indexFrom_spec (sep : List Char) (s : List Char) (i : Nat) :
    (indexFrom sep s i = -1 ∧ ¬ sep <:+: s) ∨ ((i : Int) ≤ indexFrom sep s i ∧ sep <:+: s) := by
  induction s generalizing i with
  | nil =>
    unfold indexFrom
    by_cases h : sep.isPrefixOf [] = true
    · right
      rw [if_pos h]
      refine ⟨le_refl _, ?_⟩
      exact (List.isPrefixOf_iff_prefix.mp h).isInfix
    · left
      rw [if_neg h]
      refine ⟨rfl, fun hi => h ?_⟩
      have : sep = [] := List.infix_nil.mp hi
      subst this
      rfl
  | cons c cs ih =>
    unfold indexFrom
    by_cases h : sep.isPrefixOf (c :: cs) = true
    · right
      rw [if_pos h]
      exact ⟨le_refl _, (List.isPrefixOf_iff_prefix.mp h).isInfix⟩
    · rw [if_neg h]
      have hp : ¬ sep <+: c :: cs := fun hp => h (List.isPrefixOf_iff_prefix.mpr hp)
      rcases ih (i + 1) with ⟨h1, h2⟩ | ⟨h1, h2⟩
      · left
        refine ⟨h1, fun hi => ?_⟩
        rcases List.infix_cons_iff.mp hi with h3 | h3
        · exact hp h3
        · exact h2 h3
      · right
        refine ⟨by omega, List.infix_cons_iff.mpr (Or.inr h2)⟩

theorem stringsIndex_absent (s sep : String) (h : ¬ sep.data <:+: s.data) :
    stringsIndex s sep = -1 := by
  rcases indexFrom_spec sep.data s.data 0 with ⟨h1, _⟩ | ⟨_, h2⟩
  · exact h1
  · exact absurd h2 h

theorem stringsContains_iff (s sep : String) :
    stringsContains s sep = true ↔ sep.data <:+: s.data := by
  unfold stringsContains stringsIndex
  rcases indexFrom_spec sep.data s.data 0 with ⟨h1, h2⟩ | ⟨h1, h2⟩
  · simp [h1, h2]
  · simp [h2]
    exact_mod_cast h1

theorem singleton_infix_iff (c : Char) (l : List Char) : [c] <:+: l ↔ c ∈ l := by
  constructor
  · intro h
    exact List.singleton_sublist.mp h.sublist
  · intro h
    obtain ⟨s, t, rfl⟩ := List.append_of_mem h
    exact ⟨s, t, by simp⟩

theorem stringsContains_dot (s : String) : stringsContains s "." = true ↔ '.' ∈ s.data := by
  rw [stringsContains_iff]
  exact singleton_infix_iff '.' s.data

theorem splitGo_single_length (c : Char) (s cur : List Char) :
    (splitGo [c] s 0 cur).length = s.count c + 1 := by
  induction s generalizing cur with
  | nil => simp [splitGo]
  | cons x xs ih =>
    unfold splitGo
    by_cases h : c = x
    · subst h
      simp [List.isPrefixOf, ih]
    · have h' : ¬ x = c := fun e => h e.symm
      simp [List.isPrefixOf, ih, h, h', List.count_cons]

theorem stringsSplit_slash_length (s : String) :
    (stringsSplit s "/").length = s.data.count '/' + 1 := by
  unfold stringsSplit
  rw [List.length_map]
  exact splitGo_single_length '/' s.data []

/-! ## `pkgname` -/

theorem pkgnameLoop_succ (chunks : List String) (i : Nat) :
    pkgnameLoop chunks (i + 1) =
      if chunks.getD i "" = "" then pkgnameLoop chunks i
      else if stringsContains (chunks.getD i "") "." = true then pkgnameLoop chunks i
      else chunks.getD i "" := rfl

/-- The loop passes over a run of indices whose segments are empty or hold a
dot. -/
theorem pkgnameLoop_skip (chunks : List String) (k n : Nat) (hkn : k ≤ n)
    (h : ∀ i, k ≤ i → i < n → (chunks.getD i "" = "" ∨ '.' ∈ (chunks.getD i "").data)) :
    pkgnameLoop chunks n = pkgnameLoop chunks k := by
  induction n with
  | zero =>
    have : k = 0 := by omega
    subst this; rfl
  | succ n ih =>
    by_cases hk : k = n + 1
    · subst hk; rfl
    · have hkn' : k ≤ n := by omega
      rw [← ih hkn' (fun i h1 h2 => h i h1 (by omega)), pkgnameLoop_succ]
      rcases h n hkn' (by omega) with h1 | h1
      · rw [if_pos h1]
      · rw [if_pos ((stringsContains_dot _).mpr h1), ite_self]

/-- The loop returns a segment that is non-empty and holds no dot. -/
theorem pkgnameLoop_hit (chunks : List String) (m : Nat) (h1 : chunks.getD m "" ≠ "")
    (h2 : '.' ∉ (chunks.getD m "").data) : pkgnameLoop chunks (m + 1) = chunks.getD m "" := by
  have h3 : ¬ stringsContains (chunks.getD m "") "." = true := by
    rw [stringsContains_dot]
    exact h2
  rw [pkgnameLoop_succ, if_neg h1, if_neg h3]

/-- Claim C10: for a file path that contains a `/`, `pkgname` returns the
right-most segment, other than the final one, that is non-empty and holds no
`.` (every segment between it and the final one being empty or holding a
`.`), and returns `"main"` when every segment other than the final one is
empty or holds a `.`. -/
theorem pkgname_of_dir (filePath : String) (h : '/' ∈ filePath.data) :
    (∀ pre seg post, (stringsSplit filePath "/").dropLast = pre ++ seg :: post →
        seg ≠ "" → '.' ∉ seg.data → (∀ s ∈ post, s = "" ∨ '.' ∈ s.data) →
        pkgname filePath = seg) ∧
    ((∀ s ∈ (stringsSplit filePath "/").dropLast, s = "" ∨ '.' ∈ s.data) →
        pkgname filePath = "main") := by
  have hlen : (stringsSplit filePath "/").length > 1 := by
    rw [stringsSplit_slash_length]
    have := List.count_pos_iff.mpr h
    omega
  have hpk : pkgname filePath =
      pkgnameLoop (stringsSplit filePath "/") ((stringsSplit filePath "/").length - 1) := by
    unfold pkgname
    simp [hlen]
  generalize stringsSplit filePath "/" = chunks at hlen hpk
  have hne : chunks ≠ [] := by
    intro e; subst e; simp at hlen
  have hget : ∀ i, i < chunks.dropLast.length →
      chunks.getD i "" = chunks.dropLast.getD i "" := by
    intro i hi
    conv_lhs => rw [← List.dropLast_append_getLast hne]
    rw [List.getD_append _ _ _ _ hi]
  have hdl : chunks.dropLast.length = chunks.length - 1 := List.length_dropLast _
  constructor
  · intro pre seg post hseg hs1 hs2 hpost
    rw [hpk, ← hdl, hseg]
    have hlen2 : (pre ++ seg :: post).length = pre.length + 1 + post.length := by
      simp; omega
    rw [hlen2]
    rw [pkgnameLoop_skip chunks (pre.length + 1) (pre.length + 1 + post.length) (by omega)]
    · have hg : chunks.getD pre.length "" = seg := by
        rw [hget _ (by rw [hseg, hlen2]; omega), hseg,
          List.getD_append_right _ _ _ _ (le_refl _), Nat.sub_self, List.getD_cons_zero]
      rw [pkgnameLoop_hit chunks pre.length (by rw [hg]; exact hs1) (by rw [hg]; exact hs2), hg]
    · intro i hi1 hi2
      have hg : chunks.getD i "" = post.getD (i - (pre.length + 1)) "" := by
        rw [hget _ (by rw [hseg, hlen2]; omega), hseg]
        have : pre ++ seg :: post = (pre ++ [seg]) ++ post := by simp
        rw [this, List.getD_append_right _ _ _ _ (by simp; omega)]
        simp
      have hm : post.getD (i - (pre.length + 1)) "" ∈ post := by
        rw [List.getD_eq_getElem _ _ (by omega)]
        exact List.getElem_mem _
      rw [hg]
      exact hpost _ hm
  · intro hall
    rw [hpk, pkgnameLoop_skip chunks 0 (chunks.length - 1) (by omega)]
    · rfl
    · intro i _ hi
      rw [hget _ (by omega)]
      apply hall
      rw [List.getD_eq_getElem _ _ (by omega)]
      exact List.getElem_mem _

/-- The instances of claim C10 named in it: the module-cache path of
`echo.go` gives `"echo"`, `"/go/testing.go"` gives `"go"` and
`"/testing.go"` gives `"main"`. -/
theorem pkgname_of_dir_witness :
    pkgname "/go/pkg/mod/github.com/labstack/echo/v4@v4.12.0/echo.go" = "echo" ∧
      pkgname "/go/testing.go" = "go" ∧ pkgname "/testing.go" = "main" :=
  ⟨(pkgname_of_dir "/go/pkg/mod/github.com/labstack/echo/v4@v4.12.0/echo.go" (by decide)).1
      ["", "go", "pkg", "mod", "github.com", "labstack"] "echo" ["v4@v4.12.0"]
      (by decide) (by decide) (by decide) (by decide),
    (pkgname_of_dir "/go/testing.go" (by decide)).1 [""] "go" []
      (by decide) (by decide) (by decide) (by decide),
    (pkgname_of_dir "/testing.go" (by decide)).2 (by decide)⟩

/-! ## `MarshalStack` -/

/-- The frame loop appends the renderings of the frames that pass its two
tests, in order. -/
theorem frameLoop_eq (fs : List Frame) (out : List String) :
    frameLoop fs out = out ++ (fs.filter Frame.kept).map renderFrame := by
  induction fs generalizing out with
  | nil => simp [frameLoop]
  | cons f rest ih =>
    unfold frameLoop
    by_cases h1 : pkgname f.file = "log"
    · simp [h1, ih, Frame.kept]
    · by_cases h2 : stringsIndex f.file "net/http" > 0 ∨ stringsIndex f.file "labstack/echo" > 0
      · simp only [h1, h2, if_true, if_false, ih]
        simp [Frame.kept, h1, h2]
      · simp only [h1, h2, if_false, ih]
        simp [Frame.kept, h1, h2]

theorem marshalFrames_eq (st : List Frame) :
    marshalFrames st = (st.dropLast.filter Frame.kept).map renderFrame := by
  unfold marshalFrames
  have : (if st.length > 0 then st.take (st.length - 1) else st) = st.dropLast := by
    rw [List.dropLast_eq_take]
    split
    · rfl
    · have : st = [] := by
        cases st with
        | nil => rfl
        | cons a b => simp at *
      subst this; rfl
  simp only [this, frameLoop_eq, List.nil_append]

theorem Frame.kept_of_wanted (f : Frame) (h : f.wanted = true) : f.kept = true := by
  unfold Frame.wanted at h
  simp only [Bool.and_eq_true, Bool.not_eq_true', decide_eq_true_eq, decide_eq_false_iff_not] at h
  obtain ⟨⟨h1, h2⟩, h3⟩ := h
  unfold Frame.kept
  rw [stringsIndex_absent _ _ h2, stringsIndex_absent _ _ h3]
  simp [h1]

/-- One turn of the walking loop, in the order the source asks: the
`stackTracer` assertion first, then the `Unwrap` assertion, then `Unwrap`
itself. -/
theorem walkChain_step (err : GoError) :
    walkChain err =
      match err.StackTrace with
      | some st => some st
      | none =>
        match err.Unwrap with
        | none => none
        | some none => none
        | some (some inner) => walkChain inner := by
  cases err <;> rfl

theorem walkChain_of_StackTrace (err : GoError) (frames : List Frame)
    (h : err.StackTrace = some frames) : walkChain err = some frames := by
  cases err <;> simp_all [GoError.StackTrace, walkChain]

/-- Claim C8: for a stack-bearing error with frame list `frames`,
`MarshalStack` returns a list `out` that is an order-preserving sub-list of
the renderings `pkgname(file) + "." + funcname(name) + ":" + file + ":" + line`
of all frames but the last, that holds (in order) the rendering of every one
of those frames whose derived package is not `"log"` and whose file path
contains neither `"net/http"` nor `"labstack/echo"`, and that is empty when
there is no frame. -/
theorem MarshalStack_frames (err : GoError) (frames : List Frame)
    (h : err.StackTrace = some frames) :
    ∃ out, MarshalStack (some err) = some out ∧
      out.Sublist (frames.dropLast.map (fun f =>
        pkgname f.file ++ "." ++ funcname f.name ++ ":" ++ f.file ++ ":" ++ Nat.repr f.line)) ∧
      ((frames.dropLast.filter Frame.wanted).map (fun f =>
        pkgname f.file ++ "." ++ funcname f.name ++ ":" ++ f.file ++ ":" ++ Nat.repr f.line)).Sublist
        out ∧
      (frames = [] → out = []) := by
  refine ⟨marshalFrames frames, ?_, ?_, ?_, ?_⟩
  · simp [MarshalStack, walkChain_of_StackTrace err frames h]
  · rw [marshalFrames_eq]
    exact List.Sublist.map _ (List.filter_sublist _)
  · rw [marshalFrames_eq]
    exact List.Sublist.map _
      (List.monotone_filter_right _ (fun a ha => Frame.kept_of_wanted a ha))
  · intro h0; subst h0; rfl

/-- An instance of claim C8: four frames, the second in the logging package
and the third under the web framework. -/
theorem MarshalStack_frames_witness :
    (GoError.fundamental "boom" sampleFrames).StackTrace = some sampleFrames ∧
    ∃ out, MarshalStack (some (GoError.fundamental "boom" sampleFrames)) = some out ∧
      out.Sublist (sampleFrames.dropLast.map (fun f =>
        pkgname f.file ++ "." ++ funcname f.name ++ ":" ++ f.file ++ ":" ++ Nat.repr f.line)) ∧
      ((sampleFrames.dropLast.filter Frame.wanted).map (fun f =>
        pkgname f.file ++ "." ++ funcname f.name ++ ":" ++ f.file ++ ":" ++ Nat.repr f.line)).Sublist
        out ∧
      (sampleFrames = [] → out = []) :=
  ⟨rfl, MarshalStack_frames (GoError.fundamental "boom" sampleFrames) sampleFrames rfl⟩

/-- Code at the input of claim C5: the first frame's file path starts with
the denylisted substring `net/http`, `strings.Index` answers 0 for it, the
test `> 0` fails and the frame is rendered. -/
theorem MarshalStack_renders_leading_denylisted :
    "net/http".data <:+: "net/http/server.go".data ∧
      stringsIndex "net/http/server.go" "net/http" = 0 ∧
      MarshalStack (some (GoError.fundamental "boom" trimmedHttpFrames)) =
        some ["http.serve:net/http/server.go:2009"] := by
  decide

/-- Code at the input of claim C6: a frame of the logging package read from
the module-cache directory `log@v1.0.0` gets the derived package
`cloudokyo`, not `log`, and is rendered. -/
theorem MarshalStack_renders_versioned_self_frame :
    pkgname "/go/pkg/mod/github.com/cloudokyo/log@v1.0.0/logger.go" = "cloudokyo" ∧
      MarshalStack (some (GoError.fundamental "boom" moduleCacheFrames)) =
        some ["cloudokyo.Log:/go/pkg/mod/github.com/cloudokyo/log@v1.0.0/logger.go:323",
              "app.main:/app/main.go:12"] := by
  decide

/-- Claim C7 fails as stated: on a stack holder around a stack-bearing error
the innermost frame-carrying error has the frames of `store.go`, and
`MarshalStack` renders the frames of the outer one instead. -/
theorem MarshalStack_not_innermost :
    innermostFrames nestedTraced =
        some [⟨"/app/repo/store.go", 42, "(*store).Load"⟩,
              ⟨"/usr/local/go/src/runtime/asm_amd64.s", 1650, "goexit"⟩] ∧
      MarshalStack (some nestedTraced) = some ["service.Serve:/app/service/handler.go:17"] ∧
      MarshalStack (some nestedTraced) ≠ (innermostFrames nestedTraced).map marshalFrames := by
  decide

theorem walkChain_eq_outermostFrames (err : GoError) :
    walkChain err = outermostFrames err := by
  induction err with
  | plain msg => rfl
  | wrapNil msg => rfl
  | wrap msg inner ih =>
    simp only [walkChain, ih, outermostFrames, GoError.chain]
    rw [List.find?_cons_of_neg _ (by simp [GoError.isTraced, GoError.StackTrace])]
  | fundamental msg st => rfl
  | withStack inner st _ => rfl

/-- Claim C7, amended: for every error chain, `MarshalStack` takes its frame
list from the outermost frame-carrying error of the chain, the first one in
unwrap order, and returns nil when the chain has none. -/
theorem MarshalStack_outermost (err : GoError) :
    MarshalStack (some err) = (outermostFrames err).map marshalFrames := by
  simp only [MarshalStack, walkChain_eq_outermostFrames]

theorem walkChain_none (err : GoError) (h : ∀ e ∈ err.chain, e.StackTrace = none) :
    walkChain err = none := by
  induction err with
  | plain msg => rfl
  | wrapNil msg => rfl
  | wrap msg inner ih =>
    simp only [walkChain]
    exact ih (fun e he => h e (by simp [GoError.chain, he]))
  | fundamental msg st =>
    have := h (.fundamental msg st) (by simp [GoError.chain])
    simp [GoError.StackTrace] at this
  | withStack inner st _ =>
    have := h (.withStack inner st) (by simp [GoError.chain])
    simp [GoError.StackTrace] at this

/-- Claim C9: when no error of the chain exposes a stack trace (the input is
nil, or the walk ends at an error without `Unwrap` or whose `Unwrap` returns
nil), `MarshalStack` returns nil. `MarshalStack` is a total function on the
finite chains: the walk ends on every one of them. -/
theorem MarshalStack_absent (err : Option GoError)
    (h : ∀ e ∈ chainOf err, e.StackTrace = none) : MarshalStack err = none := by
  cases err with
  | none => rfl
  | some e =>
    simp only [MarshalStack, walkChain_none e h, Option.map_none']

/-- An instance of claim C9: a message wrapper around a plain error. -/
theorem MarshalStack_absent_witness :
    (∀ e ∈ chainOf (some (GoError.wrap "load" (GoError.plain "boom"))), e.StackTrace = none) ∧
      MarshalStack (some (GoError.wrap "load" (GoError.plain "boom"))) = none :=
  ⟨by decide, MarshalStack_absent _ (by decide)⟩

/-! ## `WithValue` -/

/-- Code at the input of claim C1: `B` is `WithValue(context.Background(), "x", 0)`,
so it holds a carrier. After `c1 = WithValue(B, "a", 1)` the carrier seen
through `B` has gained `"a"`, and after `c2 = WithValue(B, "b", 2)` the
carrier seen through `c1` holds `"b"`: the three contexts share one map. -/
theorem WithValue_writes_shared_carrier :
    Heap.deref derivedBase.1 (Detach derivedBase.2) = [("x", .int 0)] ∧
      Heap.deref derivedFirst.1 (Detach derivedBase.2) = [("x", .int 0), ("a", .int 1)] ∧
      Heap.deref derivedSecond.1 (Detach derivedFirst.2) =
        [("x", .int 0), ("a", .int 1), ("b", .int 2)] ∧
      Heap.deref derivedSecond.1 (Detach derivedSecond.2) =
        [("x", .int 0), ("a", .int 1), ("b", .int 2)] := by
  decide

/-! ## `Log` and `Logf` -/

theorem Event.add_stack (e : Event) (f : Field) : (e.add f).stack = e.stack := rfl

theorem logError_stack (env : Env) (event : Event) (value : GoError) :
    (logError env event value).stack = (env.LogStack || event.stack) := by
  unfold logError
  cases hs : env.LogStack <;> simp [Event.add, Event.Stack]

theorem logError_fields (env : Env) (event : Event) (value : GoError) :
    (logError env event value).fields = event.fields ++
      [.err (.withStack value env.callers), .anErr ErrorFieldName (.withStack value env.callers)] := by
  unfold logError
  cases hs : env.LogStack <;> simp [Event.add, Event.Stack]

/-- One turn of the type switch: it fails exactly on a nil `*bool`, stack
capture stays on once on, a `true` turns it on, the message parts grow by
the argument when it is a string, and no turn inserts a string field. -/
theorem logArg_spec (env : Env) (h : Heap) (event : Event) (msgs : List String) (arg : Value)
    (hnil : arg ≠ .pbool none) :
    ∃ e' extra, logArg env h event msgs arg = some (e', msgs ++ stringArgs [arg]) ∧
      (event.stack = true → e'.stack = true) ∧
      (arg = .bool true → e'.stack = true) ∧
      e'.fields = event.fields ++ extra ∧ (∀ f ∈ extra, ∀ k v, f ≠ Field.str k v) := by
  cases arg with
  | str s => exact ⟨event, [], by simp [logArg, stringArgs]⟩
  | err e =>
    refine ⟨logError env event e, _, by simp [logArg, stringArgs], ?_, by simp,
      logError_fields env event e, by simp⟩
    intro hs; simp [logError_stack, hs]
  | errCtx e c =>
    refine ⟨logError env event e, _, by simp [logArg, stringArgs], ?_, by simp,
      logError_fields env event e, by simp⟩
    intro hs; simp [logError_stack, hs]
  | ctx c =>
    by_cases hd : (h.deref (Detach c)).length > 0
    · exact ⟨(event.Ctx c).add (.fields (h.deref (Detach c))), [.fields (h.deref (Detach c))],
        by simp [logArg, stringArgs, hd], fun hs => hs, by simp, rfl, by simp⟩
    · exact ⟨event.Ctx c, [], by simp [logArg, stringArgs, hd], fun hs => hs, by simp,
        by simp [Event.Ctx], by simp⟩
  | bool b =>
    cases b with
    | true => exact ⟨event.Stack, [], by simp [logArg, stringArgs], fun _ => rfl, fun _ => rfl,
        by simp [Event.Stack], by simp⟩
    | false => exact ⟨event, [], by simp [logArg, stringArgs], fun hs => hs, by simp,
        by simp, by simp⟩
  | pbool p =>
    cases p with
    | none => exact absurd rfl hnil
    | some b =>
      cases b with
      | true => exact ⟨event.Stack, [], by simp [logArg, stringArgs], fun _ => rfl, by simp,
          by simp [Event.Stack], by simp⟩
      | false => exact ⟨event, [], by simp [logArg, stringArgs], fun hs => hs, by simp,
          by simp, by simp⟩
  | nil => exact ⟨event.add (.any ANY .nil), [.any ANY .nil], by simp [logArg, stringArgs],
      fun hs => hs, by simp, rfl, by simp⟩
  | int i => exact ⟨event.add (.any ANY (.int i)), [.any ANY (.int i)],
      by simp [logArg, stringArgs], fun hs => hs, by simp, rfl, by simp⟩
  | other t => exact ⟨event.add (.any ANY (.other t)), [.any ANY (.other t)],
      by simp [logArg, stringArgs], fun hs => hs, by simp, rfl, by simp⟩

theorem stringArgs_cons (arg : Value) (rest : List Value) :
    stringArgs (arg :: rest) = stringArgs [arg] ++ stringArgs rest := by
  cases arg <;> simp [stringArgs]

/-- The argument loop on a list without nil `*bool`. -/
theorem logLoop_spec (env : Env) (h : Heap) (args : List Value) (event : Event)
    (msgs : List String) (hnil : Value.pbool none ∉ args) :
    ∃ e' extra, logLoop env h args event msgs = some (e', msgs ++ stringArgs args) ∧
      (event.stack = true → e'.stack = true) ∧
      (Value.bool true ∈ args → e'.stack = true) ∧
      e'.fields = event.fields ++ extra ∧ (∀ f ∈ extra, ∀ k v, f ≠ Field.str k v) := by
  induction args generalizing event msgs with
  | nil => exact ⟨event, [], by simp [logLoop, stringArgs], fun hs => hs, by simp, by simp, by simp⟩
  | cons arg rest ih =>
    have h1 : arg ≠ .pbool none := fun e => hnil (by simp [e])
    have h2 : Value.pbool none ∉ rest := fun e => hnil (by simp [e])
    obtain ⟨e1, x1, ha, hs1, ht1, hf1, hx1⟩ := logArg_spec env h event msgs arg h1
    obtain ⟨e2, x2, hb, hs2, ht2, hf2, hx2⟩ := ih e1 (msgs ++ stringArgs [arg]) h2
    refine ⟨e2, x1 ++ x2, ?_, fun hs => hs2 (hs1 hs), ?_, ?_, ?_⟩
    · simp only [logLoop, ha, hb, stringArgs_cons arg rest, List.append_assoc]
    · intro hm
      rcases List.mem_cons.mp hm with hm | hm
      · exact hs2 (ht1 hm.symm)
      · exact ht2 hm
    · rw [hf2, hf1, List.append_assoc]
    · intro f hf
      rcases List.mem_append.mp hf with hf | hf
      · exact hx1 f hf
      · exact hx2 f hf

/-- The argument loop panics on a list that holds a nil `*bool`. -/
theorem logLoop_nil_pointer (env : Env) (h : Heap) (args : List Value) (event : Event)
    (msgs : List String) (hnil : Value.pbool none ∈ args) :
    logLoop env h args event msgs = none := by
  induction args generalizing event msgs with
  | nil => simp at hnil
  | cons arg rest ih =>
    by_cases ha : arg = .pbool none
    · subst ha; simp [logLoop, logArg]
    · have hr : Value.pbool none ∈ rest := by
        rcases List.mem_cons.mp hnil with e | e
        · exact absurd e.symm ha
        · exact e
      obtain ⟨e1, _, h1, _⟩ := logArg_spec env h event msgs arg ha
      simp only [logLoop, h1, ih _ _ hr]

/-- `Log` on an argument list without nil `*bool`: it returns an event whose
fields are the input's, then insertions none of which is a string field,
then the message field `msg` holding the string arguments joined by one
space when there is a string argument, and nothing more when there is
none. -/
theorem Log_message_of_no_nil (env : Env) (h : Heap) (event : Event) (args : List Value)
    (hnil : Value.pbool none ∉ args) :
    ∃ e' extra, Log env h event args = some e' ∧
      (∀ f ∈ extra, ∀ k v, f ≠ Field.str k v) ∧
      (stringArgs args ≠ [] →
        e'.fields = event.fields ++ extra ++ [.str MSG (stringsJoin (stringArgs args) " ")]) ∧
      (stringArgs args = [] → e'.fields = event.fields ++ extra) := by
  obtain ⟨e1, extra, h1, _, _, hf, hx⟩ := logLoop_spec env h args event [] hnil
  simp only [List.nil_append] at h1
  by_cases hs : stringArgs args = []
  · refine ⟨e1, extra, ?_, hx, fun hne => absurd hs hne, fun _ => hf⟩
    simp [Log, h1, hs]
  · have hlen : (stringArgs args).length > 0 := List.length_pos.mpr hs
    refine ⟨e1.add (.str MSG (stringsJoin (stringArgs args) " ")), extra, ?_, hx, ?_,
      fun he => absurd he hs⟩
    · simp [Log, h1, hlen]
    · intro _
      simp [Event.add, hf]

/-- `Log` panics on every argument list that holds a nil `*bool`. -/
theorem Log_nil_pointer (env : Env) (h : Heap) (event : Event) (args : List Value)
    (hnil : Value.pbool none ∈ args) : Log env h event args = none := by
  simp [Log, logLoop_nil_pointer env h args event [] hnil]

/-- Code at the input of claim C2: with the arguments `"a"` and a nil `*bool`
the call panics at the dereference, before the message is set; no event
and no message field come back. -/
theorem Log_message_lost_on_nil_pointer (env : Env) (h : Heap) (event : Event) :
    stringArgs [.str "a", .pbool none] = ["a"] ∧
      Log env h event [.str "a", .pbool none] = none :=
  ⟨rfl, rfl⟩

/-- Code at the input of claim C4: on a nil `*bool` argument the call panics
at the dereference instead of returning the event. -/
theorem Log_panics_on_nil_pointer (env : Env) (h : Heap) (event : Event) :
    Log env h event [.pbool none] = none :=
  rfl

theorem logfArg_stack (env : Env) (h : Heap) (event : Event) (values : List Value)
    (arg : Value) : (logfArg env h event values arg).1.stack = event.stack := by
  cases arg <;> simp only [logfArg, logfError, Event.add]
  split <;> rfl

theorem logfLoop_stack (env : Env) (h : Heap) (args : List Value) (event : Event)
    (values : List Value) : (logfLoop env h args event values).1.stack = event.stack := by
  induction args generalizing event values with
  | nil => rfl
  | cons arg rest ih => simp only [logfLoop, ih, logfArg_stack]

/-- `Logf` never touches the stack-capture setting of the event. -/
theorem Logf_stack (env : Env) (h : Heap) (event : Event) (format : String)
    (args : List Value) : (Logf env h event format args).stack = event.stack := by
  simp only [Logf, Event.add, Event.CallerSkipFrame, logfLoop_stack]

/-- `Log` on a list that holds `true` and no nil `*bool` returns an event
with stack capture on. -/
theorem Log_stack_of_true (env : Env) (h : Heap) (event : Event) (args : List Value)
    (htrue : Value.bool true ∈ args) (hnil : Value.pbool none ∉ args) :
    ∃ e', Log env h event args = some e' ∧ e'.stack = true := by
  obtain ⟨e1, extra, h1, _, ht, _, _⟩ := logLoop_spec env h args event [] hnil
  refine ⟨_, by simp only [Log, h1]; rfl, ?_⟩
  split
  · simp only [Event.add, ht htrue]
  · exact ht htrue

/-- Claim C3 fails as stated: with `LogStack` off, the format entry point
`Errorf` called with the argument `true` sends an event with stack capture
off and prints the boolean, where `Error` turns stack capture on. -/
theorem Errorf_true_leaves_stack_off :
    (Errorf ⟨false, []⟩ [] "flag %v" [.bool true]).stack = false ∧
      (Errorf ⟨false, []⟩ [] "flag %v" [.bool true]).fields = [.msgf "flag %v" [.bool true]] ∧
      (Error ⟨false, []⟩ [] [.bool true]).map Event.stack = some true := by
  decide

/-- Claim C3, amended: for every argument list that holds the boolean `true`
and no nil `*bool`, and whatever `LogStack` is, `Log` and each non-format
entry point built on it (`Trace`, `Debug`, `Info`, `Warn`, `Error`, `Panic`,
`Fatal`) return an event with stack capture on; `Logf` leaves the
stack-capture setting of its event as it was, so each format entry point
(`Tracef`, ..., `Fatalf`) sends an event with stack capture off. -/
theorem stack_forced_by_true (env : Env) (h : Heap) (args : List Value)
    (htrue : Value.bool true ∈ args) (hnil : Value.pbool none ∉ args) :
    (∀ event, ∃ e', Log env h event args = some e' ∧ e'.stack = true) ∧
    ((∃ e', Trace env h args = some e' ∧ e'.stack = true) ∧
      (∃ e', Debug env h args = some e' ∧ e'.stack = true) ∧
      (∃ e', Info env h args = some e' ∧ e'.stack = true) ∧
      (∃ e', Warn env h args = some e' ∧ e'.stack = true) ∧
      (∃ e', Error env h args = some e' ∧ e'.stack = true) ∧
      (∃ e', Panic env h args = some e' ∧ e'.stack = true) ∧
      (∃ e', Fatal env h args = some e' ∧ e'.stack = true)) ∧
    (∀ event format, (Logf env h event format args).stack = event.stack) ∧
    (∀ format, (Tracef env h format args).stack = false ∧
      (Debugf env h format args).stack = false ∧
      (Infof env h format args).stack = false ∧
      (Warnf env h format args).stack = false ∧
      (Errorf env h format args).stack = false ∧
      (Panicf env h format args).stack = false ∧
      (Fatalf env h format args).stack = false) :=
  ⟨fun event => Log_stack_of_true env h event args htrue hnil,
    ⟨Log_stack_of_true env h _ args htrue hnil, Log_stack_of_true env h _ args htrue hnil,
      Log_stack_of_true env h _ args htrue hnil, Log_stack_of_true env h _ args htrue hnil,
      Log_stack_of_true env h _ args htrue hnil, Log_stack_of_true env h _ args htrue hnil,
      Log_stack_of_true env h _ args htrue hnil⟩,
    fun event format => Logf_stack env h event format args,
    fun format => ⟨Logf_stack env h _ format args, Logf_stack env h _ format args,
      Logf_stack env h _ format args, Logf_stack env h _ format args,
      Logf_stack env h _ format args, Logf_stack env h _ format args,
      Logf_stack env h _ format args⟩⟩

/-- An instance of the amended claim C3: `LogStack` off, the arguments
`"Hello"` and `true`; `Info` returns an event with stack capture on. -/
theorem stack_forced_by_true_witness :
    Value.bool true ∈ [Value.str "Hello", Value.bool true] ∧
      Value.pbool none ∉ [Value.str "Hello", Value.bool true] ∧
      (∃ e', Info ⟨false, []⟩ [] [.str "Hello", .bool true] = some e' ∧ e'.stack = true) ∧
      (Infof ⟨false, []⟩ [] "%s %v" [.str "Hello", .bool true]).stack = false :=
  ⟨by decide, by decide,
    (stack_forced_by_true ⟨false, []⟩ [] [.str "Hello", .bool true]
      (by decide) (by decide)).2.1.2.2.1,
    ((stack_forced_by_true ⟨false, []⟩ [] [.str "Hello", .bool true]
      (by decide) (by decide)).2.2.2 "%s %v").2.2.1⟩

/-! ## `pkgname` on a bare file name and `funcname` -/

theorem pkgname_eq_trim (filePath : String) (h : '/' ∉ filePath.data) :
    pkgname filePath = stringsTrimSuffix filePath ".go" := by
  have hlen : (stringsSplit filePath "/").length = 1 := by
    rw [stringsSplit_slash_length, List.count_eq_zero_of_not_mem h]
  unfold pkgname
  simp [hlen]

/-- Claim C11: for a file path without `/`, `pkgname` returns the path with
one trailing `.go` removed when the path ends in `.go`, and the path itself
otherwise. -/
theorem pkgname_of_file (filePath : String) (h : '/' ∉ filePath.data) :
    (∀ stem : String, filePath = stem ++ ".go" → pkgname filePath = stem) ∧
    (¬ ".go".data <:+ filePath.data → pkgname filePath = filePath) := by
  rw [pkgname_eq_trim filePath h]
  constructor
  · intro stem hs
    subst hs
    unfold stringsTrimSuffix
    have h1 : ".go".data.isSuffixOf (stem ++ ".go").data = true := by
      rw [List.isSuffixOf_iff_suffix, String.data_append]
      exact List.suffix_append _ _
    rw [if_pos h1]
    have h2 : (stem ++ ".go").data.take ((stem ++ ".go").data.length - ".go".data.length)
        = stem.data := by
      rw [String.data_append, List.length_append, Nat.add_sub_cancel]
      exact List.take_left' rfl
    rw [h2]
  · intro hs
    unfold stringsTrimSuffix
    have h1 : ¬ ".go".data.isSuffixOf filePath.data = true := by
      rw [List.isSuffixOf_iff_suffix]
      exact hs
    rw [if_neg h1]

/-- The instances of claim C11 named in it: `"testing.go"` gives `"testing"`,
`"test.go"` gives `"test"` and the empty path gives the empty string. -/
theorem pkgname_of_file_witness :
    pkgname "testing.go" = "testing" ∧ pkgname "test.go" = "test" ∧ pkgname "" = "" :=
  ⟨(pkgname_of_file "testing.go" (by decide)).1 "testing" (by decide),
    (pkgname_of_file "test.go" (by decide)).1 "test" (by decide),
    (pkgname_of_file "" (by decide)).2 (by decide)⟩

theorem splitGo_absent (sep s cur : List Char) (h : ¬ sep <:+: s) :
    splitGo sep s 0 cur = [cur.reverse ++ s] := by
  induction s generalizing cur with
  | nil => simp [splitGo]
  | cons c cs ih =>
    have hp : ¬ sep.isPrefixOf (c :: cs) = true := fun hp =>
      h (List.isPrefixOf_iff_prefix.mp hp).isInfix
    have hc : ¬ sep <:+: cs := fun hc => h (List.infix_cons_iff.mpr (Or.inr hc))
    rw [splitGo, if_neg hp, ih _ hc]
    simp

theorem getLast?_cons_of_some {α : Type} (a x : α) (l : List α) (h : l.getLast? = some x) :
    (a :: l).getLast? = some x := by
  cases l with
  | nil => simp at h
  | cons b t => rw [List.getLast?_cons_cons]; exact h

/-- The last piece `strings.Split` cuts off at the separator `")."` is what
follows an occurrence of the separator after which there is none. -/
theorem splitGo_last (post : List Char) (hpost : ¬ [')', '.'] <:+: post) (n : Nat) :
    ∀ pre cur : List Char, pre.length ≤ n →
      (splitGo [')', '.'] (pre ++ ')' :: '.' :: post) 0 cur).getLast? = some post := by
  induction n with
  | zero =>
    intro pre cur hlen
    have : pre = [] := List.length_eq_zero.mp (by omega)
    subst this
    simp [splitGo, List.isPrefixOf, splitGo_absent _ _ _ hpost]
  | succ n ih =>
    intro pre cur hlen
    cases pre with
    | nil => simp [splitGo, List.isPrefixOf, splitGo_absent _ _ _ hpost]
    | cons c pre1 =>
      by_cases hp : [')', '.'].isPrefixOf (c :: (pre1 ++ ')' :: '.' :: post)) = true
      · cases pre1 with
        | nil => simp [List.isPrefixOf] at hp
        | cons d pre2 =>
          have hl : pre2.length ≤ n := by simp at hlen; omega
          rw [List.cons_append, splitGo, if_pos hp]
          apply getLast?_cons_of_some
          have e : ([')', '.'] : List Char).length - 1 = 0 + 1 := rfl
          rw [e, List.cons_append, splitGo]
          exact ih pre2 [] hl
      · have hl : pre1.length ≤ n := by simp at hlen; omega
        rw [List.cons_append, splitGo, if_neg hp]
        exact ih pre1 (c :: cur) hl

theorem funcname_eq_last (name : String) (post : List Char)
    (h : (splitGo ").".data name.data 0 []).getLast? = some post) :
    funcname name = String.mk post := by
  unfold funcname stringsSplit
  have hl : ((splitGo ").".data name.data 0 []).map String.mk).getLast? = some (String.mk post) := by
    rw [List.getLast?_map, h]; rfl
  have hpos : ((splitGo ").".data name.data 0 []).map String.mk).length > 0 := by
    cases hs : (splitGo ").".data name.data 0 []).map String.mk with
    | nil => rw [hs] at hl; simp at hl
    | cons a t => simp
  simp only [hpos, if_true]
  rw [List.getD_eq_getElem?_getD, ← List.getLast?_eq_getElem?, hl]
  rfl

theorem last_occurrence (sep s : List Char) (hsep : sep ≠ []) (h : sep <:+: s) :
    ∃ pre post, s = pre ++ sep ++ post ∧ ¬ sep <:+: post := by
  induction s with
  | nil => exact absurd (List.infix_nil.mp h) hsep
  | cons c cs ih =>
    by_cases h2 : sep <:+: cs
    · obtain ⟨pre, post, he, hn⟩ := ih h2
      exact ⟨c :: pre, post, by simp [he], hn⟩
    · rcases List.infix_cons_iff.mp h with h3 | h3
      · obtain ⟨t, ht⟩ := h3
        refine ⟨[], t, by simp [ht], fun hi => h2 ?_⟩
        cases sep with
        | nil => exact absurd rfl hsep
        | cons a sep1 =>
          have hcs : cs = sep1 ++ t := by
            simp only [List.cons_append, List.cons.injEq] at ht
            exact ht.2.symm
          rw [hcs]
          exact hi.trans (List.suffix_append _ _).isInfix
      · exact absurd h3 h2

theorem funcname_absent (name : String) (h : ¬ ").".data <:+: name.data) :
    funcname name = name := by
  rw [funcname_eq_last name name.data]
  rw [splitGo_absent _ _ _ h]
  rfl

theorem funcname_after (name pre post : String) (he : name = pre ++ ")." ++ post)
    (hpost : ¬ ").".data <:+: post.data) : funcname name = post := by
  rw [funcname_eq_last name post.data]
  subst he
  have : (pre ++ ")." ++ post).data = pre.data ++ ')' :: '.' :: post.data := by
    simp [String.data_append]
  rw [this]
  exact splitGo_last post.data hpost pre.data.length pre.data [] (le_refl _)

theorem funcname_clean (name : String) : ¬ ").".data <:+: (funcname name).data := by
  by_cases h : ").".data <:+: name.data
  · obtain ⟨pre, post, he, hn⟩ := last_occurrence ").".data name.data (by decide) h
    have : name = String.mk pre ++ ")." ++ String.mk post := by
      apply String.ext
      simp [String.data_append, he]
    rw [funcname_after name (String.mk pre) (String.mk post) this hn]
    exact hn
  · rw [funcname_absent name h]
    exact h

/-- Claim C12: `funcname` returns the name unchanged when it does not contain
`")."`; when the name is `pre + ")." + post` with no `")."` in `post` (the
occurrence is the last one: an occurrence cannot start on its `.`), it
returns `post`; the result never contains `")."`, so `funcname` is
idempotent. -/
theorem funcname_spec (name : String) :
    (¬ ").".data <:+: name.data → funcname name = name) ∧
    (∀ pre post : String, name = pre ++ ")." ++ post → ¬ ").".data <:+: post.data →
      funcname name = post) ∧
    ¬ ").".data <:+: (funcname name).data ∧
    funcname (funcname name) = funcname name :=
  ⟨funcname_absent name, fun pre post he hp => funcname_after name pre post he hp,
    funcname_clean name, funcname_absent _ (funcname_clean name)⟩

/-- The instances of claim C12 named in it: `"Log"` gives `"Log"`,
`"(*service).Add.1"` gives `"Add.1"` and the empty name gives the empty
string. -/
theorem funcname_spec_witness :
    funcname "Log" = "Log" ∧ funcname "(*service).Add.1" = "Add.1" ∧ funcname "" = "" :=
  ⟨(funcname_spec "Log").1 (by decide),
    (funcname_spec "(*service).Add.1").2.1 "(*service" "Add.1" (by decide) (by decide),
    (funcname_spec "").1 (by decide)⟩

/-! ## The format arguments of `Logf` -/

theorem logfArg_values (env : Env) (h : Heap) (event : Event) (values : List Value)
    (arg : Value) (hboth : ¬ (arg.isError = true ∧ arg.isContext = true)) :
    (logfArg env h event values arg).2 = values ++ [arg].filter (fun a => !a.isContext) := by
  cases arg with
  | ctx c =>
    simp only [logfArg]
    split <;> simp [Value.isContext]
  | errCtx e c => exact absurd ⟨rfl, rfl⟩ hboth
  | _ => simp [logfArg, Value.isContext]

theorem logfLoop_values (env : Env) (h : Heap) (args : List Value) (event : Event)
    (values : List Value)
    (hboth : ∀ a ∈ args, ¬ (a.isError = true ∧ a.isContext = true)) :
    (logfLoop env h args event values).2 = values ++ args.filter (fun a => !a.isContext) := by
  induction args generalizing event values with
  | nil => simp [logfLoop]
  | cons arg rest ih =>
    have h1 := logfArg_values env h event values arg (hboth arg (by simp))
    have h2 := ih (logfArg env h event values arg).1 (logfArg env h event values arg).2
      (fun a ha => hboth a (by simp [ha]))
    show (logfLoop env h rest (logfArg env h event values arg).1
      (logfArg env h event values arg).2).2 = _
    rw [h2, h1, List.append_assoc, ← List.filter_append]
    rfl

/-- Claim C13: when no argument is both an error and a context handle, the
argument list `Logf` applies to the format string (the one it hands to
`Msgf`, the last insertion into the event it sends) is the input list with
the context handles removed and everything else kept in order. -/
theorem Logf_format_values (env : Env) (h : Heap) (event : Event) (format : String)
    (args : List Value)
    (hboth : ∀ a ∈ args, ¬ (a.isError = true ∧ a.isContext = true)) :
    formatValues env h event args = args.filter (fun a => !a.isContext) ∧
    (Logf env h event format args).fields.getLast? =
      some (.msgf format (args.filter (fun a => !a.isContext))) := by
  have hv := logfLoop_values env h args event [] hboth
  simp only [List.nil_append] at hv
  refine ⟨hv, ?_⟩
  simp only [Logf, Event.add, Event.CallerSkipFrame, List.getLast?_concat, hv]

/-- An instance of claim C13: the call of the test `TestLogContext`,
`Errorf(format, "world", ctx, err)`: the context is dropped, the string and
the error stay. -/
theorem Logf_format_values_witness :
    formatValues ⟨false, []⟩ derivedBase.1 (stdEvent .error)
        [.str "world", .ctx derivedBase.2, .err (.plain "Test e2e")] =
      [.str "world", .err (.plain "Test e2e")] ∧
    (Logf ⟨false, []⟩ derivedBase.1 (stdEvent .error) "Hello %s"
        [.str "world", .ctx derivedBase.2, .err (.plain "Test e2e")]).fields.getLast? =
      some (.msgf "Hello %s" [.str "world", .err (.plain "Test e2e")]) :=
  Logf_format_values ⟨false, []⟩ derivedBase.1 (stdEvent .error) "Hello %s"
    [.str "world", .ctx derivedBase.2, .err (.plain "Test e2e")] (by decide)

/-! ## `WithValue`, `Detach` and `RequestId` -/

theorem carrier_get_assign_self (c : ContextData) (key : String) (value : Value) :
    ContextData.get (ContextData.assign c key value) key = some value := by
  induction c with
  | nil => simp [ContextData.assign, ContextData.get]
  | cons kv rest ih =>
    obtain ⟨k, v⟩ := kv
    by_cases hk : k = key
    · simp [ContextData.assign, ContextData.get, hk]
    · simp [ContextData.assign, ContextData.get, hk, ih]

theorem carrier_get_assign_other (c : ContextData) (key k : String) (value : Value)
    (hne : k ≠ key) :
    ContextData.get (ContextData.assign c key value) k = ContextData.get c k := by
  induction c with
  | nil =>
    have : ¬ key = k := fun e => hne e.symm
    simp [ContextData.assign, ContextData.get, this]
  | cons kv rest ih =>
    obtain ⟨k1, v1⟩ := kv
    by_cases hk : k1 = key
    · have : ¬ key = k := fun e => hne e.symm
      simp [ContextData.assign, ContextData.get, hk, this]
    · by_cases hk2 : k1 = k
      · subst hk2
        simp [ContextData.assign, ContextData.get, hk]
      · simp [ContextData.assign, ContextData.get, hk, hk2, ih]

theorem carrier_assign_length_pos (c : ContextData) (key : String) (value : Value) :
    0 < (ContextData.assign c key value).length := by
  cases c with
  | nil => simp [ContextData.assign]
  | cons kv rest =>
    obtain ⟨k, v⟩ := kv
    by_cases hk : k = key <;> simp [ContextData.assign, hk]

theorem Detach_withValue (ctx : Context) (ref : Option Nat) :
    Detach (.withValue ctx ContextKey (.data ref)) = ref := by
  simp [Detach, Context.Value]

/-- The carrier seen through the context `WithValue` returns is the carrier
seen through its argument with the one assignment made. -/
theorem deref_WithValue (h : Heap) (ctx : Context) (key : String) (value : Value)
    (hh : h.holds ctx) :
    Heap.deref (WithValue h ctx key value).1 (Detach (WithValue h ctx key value).2) =
      ContextData.assign (h.deref (Detach ctx)) key value := by
  unfold WithValue
  cases hd : Detach ctx with
  | none =>
    simp only [Detach_withValue, Heap.deref]
    rw [List.getD_append_right _ _ _ _ (le_refl _)]
    simp
  | some r =>
    have hr : r < h.length := hh r hd
    simp only [Detach_withValue, Heap.deref]
    simp [List.getD_eq_getElem?_getD, hr]

/-- Claim C14: for every context (with a carrier in the heap or without one)
and every string `X`, `RequestId(WithValue(ctx, "id", X)) = X`. -/
theorem RequestId_WithValue (other : Value → String) (h : Heap) (ctx : Context) (X : String)
    (hh : h.holds ctx) :
    RequestId other (WithValue h ctx "id" (.str X)).1 (WithValue h ctx "id" (.str X)).2 = X := by
  unfold RequestId
  simp only [deref_WithValue h ctx "id" (.str X) hh]
  have hpos := carrier_assign_length_pos (h.deref (Detach ctx)) "id" (.str X)
  rw [if_neg (by omega)]
  have hg : ContextData.get (ContextData.assign (h.deref (Detach ctx)) "id" (.str X)) RequestKey
      = some (.str X) := carrier_get_assign_self _ _ _
  rw [hg]
  rfl

/-- Two instances of claim C14: the background context, which holds no
carrier, and a context that already holds a carrier with another request
id. -/
theorem RequestId_WithValue_witness :
    Heap.holds [] Context.background ∧
    RequestId (fun _ => "") (WithValue [] .background "id" (.str "test-request-id")).1
      (WithValue [] .background "id" (.str "test-request-id")).2 = "test-request-id" ∧
    RequestId (fun _ => "") (WithValue [[("id", .str "old")]]
        (.withValue .background ContextKey (.data (some 0))) "id" (.str "new")).1
      (WithValue [[("id", .str "old")]]
        (.withValue .background ContextKey (.data (some 0))) "id" (.str "new")).2 = "new" :=
  ⟨by intro r hr; simp [Detach, Context.Value] at hr,
    RequestId_WithValue _ [] .background "test-request-id"
      (by intro r hr; simp [Detach, Context.Value] at hr),
    RequestId_WithValue _ [[("id", .str "old")]]
      (.withValue .background ContextKey (.data (some 0))) "new"
      (by intro r hr; simp [Detach, Context.Value] at hr; subst hr; decide)⟩

/-- Claim C15: the carrier `Detach(WithValue(ctx, key, value))` maps `key` to
`value` and maps every other key as `Detach(ctx)` does, which is to nothing
when `ctx` holds no carrier. -/
theorem Detach_WithValue_entries (h : Heap) (ctx : Context) (key : String) (value : Value)
    (hh : h.holds ctx) :
    ContextData.get (Heap.deref (WithValue h ctx key value).1
        (Detach (WithValue h ctx key value).2)) key = some value ∧
    (∀ k, k ≠ key →
      ContextData.get (Heap.deref (WithValue h ctx key value).1
        (Detach (WithValue h ctx key value).2)) k = ContextData.get (h.deref (Detach ctx)) k) ∧
    (Detach ctx = none → ∀ k, k ≠ key →
      ContextData.get (Heap.deref (WithValue h ctx key value).1
        (Detach (WithValue h ctx key value).2)) k = none) := by
  rw [deref_WithValue h ctx key value hh]
  refine ⟨carrier_get_assign_self _ _ _,
    fun k hk => carrier_get_assign_other _ _ _ _ hk, fun hd k hk => ?_⟩
  rw [carrier_get_assign_other _ _ _ _ hk, hd]
  rfl

/-- An instance of claim C15: a carrier that holds `uid` and `id`; the
assignment overwrites `id` and keeps `uid`. -/
theorem Detach_WithValue_entries_witness :
    ContextData.get (Heap.deref
        (WithValue [[("uid", .int 7), ("id", .str "old")]]
          (.withValue .background ContextKey (.data (some 0))) "id" (.str "new")).1
        (Detach (WithValue [[("uid", .int 7), ("id", .str "old")]]
          (.withValue .background ContextKey (.data (some 0))) "id" (.str "new")).2)) "id"
      = some (.str "new") ∧
    ContextData.get (Heap.deref
        (WithValue [[("uid", .int 7), ("id", .str "old")]]
          (.withValue .background ContextKey (.data (some 0))) "id" (.str "new")).1
        (Detach (WithValue [[("uid", .int 7), ("id", .str "old")]]
          (.withValue .background ContextKey (.data (some 0))) "id" (.str "new")).2)) "uid"
      = some (.int 7) :=
  ⟨(Detach_WithValue_entries [[("uid", .int 7), ("id", .str "old")]]
      (.withValue .background ContextKey (.data (some 0))) "id" (.str "new")
      (by intro r hr; simp [Detach, Context.Value] at hr; subst hr; decide)).1,
    ((Detach_WithValue_entries [[("uid", .int 7), ("id", .str "old")]]
      (.withValue .background ContextKey (.data (some 0))) "id" (.str "new")
      (by intro r hr; simp [Detach, Context.Value] at hr; subst hr; decide)).2.1 "uid"
      (by decide)).trans (by decide)⟩

/-! ## `ContextData.String` -/

/-- Code at the input of claim C16: a carrier whose first visited entry has
the empty key and a value that prints as the empty string. After that entry
the buffer holds `"="`, one byte, the test `output.Len() > 1` fails and no
space is written before the second entry. -/
theorem String_drops_separator (other : Value → String) :
    ContextData.String other emptyKeyCarrier = "=a=b" ∧
      joinedEntries other emptyKeyCarrier = "= a=b" :=
  ⟨rfl, rfl⟩

/-- Claim C17 fails as stated: the two visiting orders of one two-entry
carrier render to different strings. -/
theorem String_follows_iteration_order :
    twoEntries.Perm twoEntriesSwapped ∧
      ContextData.String (fun _ => "") twoEntries = "k1=v1 k2=v2" ∧
      ContextData.String (fun _ => "") twoEntriesSwapped = "k2=v2 k1=v1" ∧
      ContextData.String (fun _ => "") twoEntries ≠
        ContextData.String (fun _ => "") twoEntriesSwapped :=
  ⟨List.Perm.swap _ _ _, rfl, rfl, by decide⟩

theorem append_eq_sign_ne_empty (a b : String) : a ++ "=" ++ b ≠ "" := by
  intro h
  have := congrArg String.data h
  simp [String.data_append] at this

theorem stringLoop_ne_empty (other : Value → String) (rest : ContextData) (output : String)
    (h : output ≠ "") : ContextData.stringLoop other rest output ≠ "" := by
  induction rest generalizing output with
  | nil => exact h
  | cons kv rest ih =>
    obtain ⟨k, v⟩ := kv
    unfold ContextData.stringLoop
    exact ih _ (append_eq_sign_ne_empty _ _)

/-- Claim C18: `ContextData.String` returns the empty string if and only if
the carrier has zero entries. -/
theorem String_empty_iff (other : Value → String) (c : ContextData) :
    ContextData.String other c = "" ↔ c.length = 0 := by
  cases c with
  | nil => simp [ContextData.String, ContextData.IsEmpty]
  | cons kv rest =>
    obtain ⟨k, v⟩ := kv
    simp only [ContextData.String, ContextData.IsEmpty, List.length_cons]
    constructor
    · intro h
      exfalso
      simp only [Nat.add_one_ne_zero, beq_iff_eq, if_false] at h
      unfold ContextData.stringLoop at h
      exact stringLoop_ne_empty other rest _ (append_eq_sign_ne_empty _ _) h
    · intro h
      omega

/-! ## The doc comment of `pkgname` -/

/-- Claim C19 fails as stated: the two examples of the doc comment of
`pkgname` do not give `"main"`. -/
theorem pkgname_doc_examples_not_main :
    pkgname "" ≠ "main" ∧ pkgname "test.go" ≠ "main" := by
  decide

/-- Claim C19, amended: `pkgname("")` returns the empty string and
`pkgname("test.go")` returns `"test"`, the stripped file name, as
`TestPackageName` asserts for `""` and `"testing.go"`. -/
theorem pkgname_bare_examples :
    pkgname "" = "" ∧ pkgname "test.go" = "test" := by
  decide

/-! ## Stack capture in `Log` -/

/-- One turn of the type switch, on an argument that is not a nil `*bool`:
stack capture is on afterwards exactly when it was on before, or the
argument is `true`, or it points to `true`, or it is an error and `LogStack`
is on. -/
theorem logArg_stack_iff (env : Env) (h : Heap) (event : Event) (msgs : List String)
    (arg : Value) (hnil : arg ≠ .pbool none) :
    ∃ e' m', logArg env h event msgs arg = some (e', m') ∧
      (e'.stack = true ↔ event.stack = true ∨ arg = .bool true ∨ arg = .pbool (some true) ∨
        (env.LogStack = true ∧ arg.isError = true)) := by
  cases arg with
  | str s => exact ⟨event, _, rfl, by simp [Value.isError]⟩
  | err e =>
    refine ⟨logError env event e, _, rfl, ?_⟩
    rw [logError_stack]
    cases env.LogStack <;> simp [Value.isError]
  | errCtx e c =>
    refine ⟨logError env event e, _, rfl, ?_⟩
    rw [logError_stack]
    cases env.LogStack <;> simp [Value.isError]
  | ctx c =>
    refine ⟨_, _, rfl, ?_⟩
    simp only [Value.isError]
    split <;> simp [Event.add, Event.Ctx]
  | bool b =>
    cases b with
    | true => exact ⟨event.Stack, _, rfl, by simp [Event.Stack]⟩
    | false => exact ⟨event, _, rfl, by simp [Value.isError]⟩
  | pbool p =>
    cases p with
    | none => exact absurd rfl hnil
    | some b =>
      cases b with
      | true => exact ⟨event.Stack, _, rfl, by simp [Event.Stack]⟩
      | false => exact ⟨event, _, rfl, by simp [Value.isError]⟩
  | nil => exact ⟨_, _, rfl, by simp [Event.add, Value.isError]⟩
  | int i => exact ⟨_, _, rfl, by simp [Event.add, Value.isError]⟩
  | other t => exact ⟨_, _, rfl, by simp [Event.add, Value.isError]⟩

theorem logLoop_stack_iff (env : Env) (h : Heap) (args : List Value) (event : Event)
    (msgs : List String) (hnil : Value.pbool none ∉ args) :
    ∃ e' m', logLoop env h args event msgs = some (e', m') ∧
      (e'.stack = true ↔ event.stack = true ∨ Value.bool true ∈ args ∨
        Value.pbool (some true) ∈ args ∨
        (env.LogStack = true ∧ ∃ a ∈ args, a.isError = true)) := by
  induction args generalizing event msgs with
  | nil => exact ⟨event, msgs, rfl, by simp⟩
  | cons arg rest ih =>
    have h1 : arg ≠ .pbool none := fun e => hnil (by simp [e])
    have h2 : Value.pbool none ∉ rest := fun e => hnil (by simp [e])
    obtain ⟨e1, m1, ha, hs1⟩ := logArg_stack_iff env h event msgs arg h1
    obtain ⟨e2, m2, hb, hs2⟩ := ih e1 m1 h2
    refine ⟨e2, m2, by simp only [logLoop, ha, hb], ?_⟩
    rw [hs2, hs1]
    simp only [List.mem_cons, exists_eq_or_imp]
    constructor
    · rintro ((h0 | h0 | h0 | h0) | h0 | h0 | h0)
      · exact Or.inl h0
      · exact Or.inr (Or.inl (Or.inl h0.symm))
      · exact Or.inr (Or.inr (Or.inl (Or.inl h0.symm)))
      · exact Or.inr (Or.inr (Or.inr ⟨h0.1, Or.inl h0.2⟩))
      · exact Or.inr (Or.inl (Or.inr h0))
      · exact Or.inr (Or.inr (Or.inl (Or.inr h0)))
      · exact Or.inr (Or.inr (Or.inr ⟨h0.1, Or.inr h0.2⟩))
    · rintro (h0 | (h0 | h0) | (h0 | h0) | ⟨h0, h3 | h3⟩)
      · exact Or.inl (Or.inl h0)
      · exact Or.inl (Or.inr (Or.inl h0.symm))
      · exact Or.inr (Or.inl h0)
      · exact Or.inl (Or.inr (Or.inr (Or.inl h0.symm)))
      · exact Or.inr (Or.inr (Or.inl h0))
      · exact Or.inl (Or.inr (Or.inr (Or.inr ⟨h0, h3⟩)))
      · exact Or.inr (Or.inr (Or.inr ⟨h0, h3⟩))

/-- A false boolean, plain or pointed-to, leaves the loop of `Log` as it
is: dropping such arguments changes nothing. -/
theorem logLoop_drop_false (env : Env) (h : Heap) (args : List Value) (event : Event)
    (msgs : List String) :
    logLoop env h (args.filter (fun a => !a.isFalseFlag)) event msgs =
      logLoop env h args event msgs := by
  induction args generalizing event msgs with
  | nil => rfl
  | cons arg rest ih =>
    by_cases hf : arg.isFalseFlag = true
    · have hstep : logArg env h event msgs arg = some (event, msgs) := by
        cases arg with
        | bool b => cases b <;> simp_all [Value.isFalseFlag, logArg]
        | pbool p =>
          cases p with
          | none => simp [Value.isFalseFlag] at hf
          | some b => cases b <;> simp_all [Value.isFalseFlag, logArg]
        | _ => simp [Value.isFalseFlag] at hf
      rw [List.filter_cons_of_neg (by simp [hf])]
      simp only [logLoop, hstep, ih]
    · rw [List.filter_cons_of_pos (by simp [hf])]
      simp only [logLoop]
      cases logArg env h event msgs arg with
      | none => rfl
      | some r => exact ih r.1 r.2

/-- Claim C20: on an argument list without a nil `*bool`, `Log` returns an
event on which stack capture is enabled if and only if it was enabled on the
input event, or some argument is `true`, or some argument points to `true`,
or `LogStack` is on and some argument is an error; and a false boolean,
plain or pointed-to, changes nothing: the call returns the same event with
such arguments dropped. -/
theorem Log_stack_iff (env : Env) (h : Heap) (event : Event) (args : List Value)
    (hnil : Value.pbool none ∉ args) :
    (∃ e', Log env h event args = some e' ∧
      (e'.stack = true ↔ event.stack = true ∨ Value.bool true ∈ args ∨
        Value.pbool (some true) ∈ args ∨
        (env.LogStack = true ∧ ∃ a ∈ args, a.isError = true))) ∧
    Log env h event (args.filter (fun a => !a.isFalseFlag)) = Log env h event args := by
  constructor
  · obtain ⟨e1, m1, h1, hs⟩ := logLoop_stack_iff env h args event [] hnil
    refine ⟨_, by simp only [Log, h1]; rfl, ?_⟩
    rw [← hs]
    split <;> simp [Event.add]
  · simp only [Log, logLoop_drop_false]

/-- An instance of claim C20: `LogStack` off, an error and two false
booleans; stack capture stays off, and it is on once `LogStack` is on. -/
theorem Log_stack_iff_witness :
    Value.pbool none ∉ [Value.err (.plain "boom"), Value.bool false, Value.pbool (some false)] ∧
    (∃ e', Log ⟨false, []⟩ [] (stdEvent .error)
        [.err (.plain "boom"), .bool false, .pbool (some false)] = some e' ∧ e'.stack = false) ∧
    (∃ e', Log ⟨true, []⟩ [] (stdEvent .error)
        [.err (.plain "boom"), .bool false, .pbool (some false)] = some e' ∧ e'.stack = true) :=
  ⟨by decide,
    (Log_stack_iff ⟨false, []⟩ [] (stdEvent .error)
      [.err (.plain "boom"), .bool false, .pbool (some false)] (by decide)).1.imp
      fun _ he => ⟨he.1, by
        have := he.2
        simp [stdEvent] at this
        exact this⟩,
    (Log_stack_iff ⟨true, []⟩ [] (stdEvent .error)
      [.err (.plain "boom"), .bool false, .pbool (some false)] (by decide)).1.imp
      fun _ he => ⟨he.1, he.2.mpr (by simp [Value.isError])⟩⟩

/-! ## Further facts: where the separator is written, and valid heaps -/

theorem byteSize_append (a b : String) :
    (a ++ b).utf8ByteSize = a.utf8ByteSize + b.utf8ByteSize := by
  show String.utf8Len (a.data ++ b.data) = String.utf8Len a.data + String.utf8Len b.data
  exact String.utf8Len_append _ _

theorem byteSize_pos_of_ne_empty (a : String) (h : a ≠ "") : 0 < a.utf8ByteSize := by
  have h1 : a.data ≠ [] := fun e => h (String.ext e)
  have h2 : String.utf8Len a.data ≠ 0 := fun e => h1 (String.utf8Len_eq_zero.mp e)
  exact Nat.pos_of_ne_zero h2

theorem stringsJoin_glue (a b : String) (l : List String) :
    stringsJoin ((a ++ " " ++ b) :: l) " " = a ++ " " ++ stringsJoin (b :: l) " " := by
  cases l with
  | nil => rfl
  | cons c t => simp only [stringsJoin, String.append_assoc]

/-- Once the buffer holds more than one byte the loop writes one space
before every entry. -/
theorem stringLoop_joined (other : Value → String) (rest : ContextData) (output : String)
    (h : output.utf8ByteSize > 1) :
    ContextData.stringLoop other rest output =
      stringsJoin (output :: rest.map (fun kv => kv.1 ++ "=" ++ castToString other kv.2)) " " := by
  induction rest generalizing output with
  | nil => rfl
  | cons kv rest ih =>
    obtain ⟨k, v⟩ := kv
    unfold ContextData.stringLoop
    simp only [h, if_true]
    rw [ih]
    · show _ = output ++ " " ++ stringsJoin ((k ++ "=" ++ castToString other v) ::
          rest.map (fun kv => kv.1 ++ "=" ++ castToString other kv.2)) " "
      rw [← stringsJoin_glue]
      simp only [String.append_assoc]
    · simp only [byteSize_append]
      omega

/-- The rendering is the space-joined one whenever the entry visited first
has a non-empty key or a value that does not print as the empty string. -/
theorem String_eq_joinedEntries (other : Value → String) (k : String) (v : Value)
    (rest : ContextData) (h : k ≠ "" ∨ castToString other v ≠ "") :
    ContextData.String other ((k, v) :: rest) = joinedEntries other ((k, v) :: rest) := by
  have hsize : ("" ++ k ++ "=" ++ castToString other v).utf8ByteSize > 1 := by
    simp only [byteSize_append]
    have h1 : ("=" : String).utf8ByteSize = 1 := by decide
    rcases h with h | h
    · have := byteSize_pos_of_ne_empty k h
      omega
    · have := byteSize_pos_of_ne_empty _ h
      omega
  unfold ContextData.String joinedEntries
  have he : ContextData.IsEmpty ((k, v) :: rest) = false := rfl
  rw [he]
  simp only [Bool.false_eq_true, if_false]
  unfold ContextData.stringLoop
  have h0 : ¬ ("" : String).utf8ByteSize > 1 := by decide
  simp only [h0, if_false]
  rw [stringLoop_joined other rest _ hsize]
  simp only [String.empty_append, List.map_cons]

theorem holds_background (h : Heap) : h.holds .background := by
  intro r hr
  simp [Detach, Context.Value] at hr

/-- The context `WithValue` returns refers to a map of the heap it returns. -/
theorem holds_WithValue (h : Heap) (ctx : Context) (key : String) (value : Value)
    (hh : h.holds ctx) :
    Heap.holds (WithValue h ctx key value).1 (WithValue h ctx key value).2 := by
  intro r hr
  unfold WithValue at hr ⊢
  cases hd : Detach ctx with
  | none =>
    rw [hd] at hr
    simp only [Detach_withValue, Option.some.injEq] at hr
    subst hr
    simp
  | some r0 =>
    rw [hd] at hr
    simp only [Detach_withValue, Option.some.injEq] at hr
    subst hr
    simp only [List.length_set]
    exact hh _ hd

/-! ## The rendering under different visiting orders -/

/-- The loop only appends to the buffer. -/
theorem stringLoop_extends (other : Value → String) (rest : ContextData) (output : String) :
    output.data <+: (ContextData.stringLoop other rest output).data := by
  induction rest generalizing output with
  | nil => exact List.prefix_refl _
  | cons kv rest ih =>
    obtain ⟨k, v⟩ := kv
    unfold ContextData.stringLoop
    refine List.IsPrefix.trans ?_ (ih _)
    split <;> simp only [String.data_append, List.append_assoc] <;> exact List.prefix_append _ _

/-- The loop writes `key + "=" + stringified value` for every entry it
visits. -/
theorem stringLoop_contains (other : Value → String) (rest : ContextData) (output : String)
    (kv : String × Value) (h : kv ∈ rest) :
    (kv.1 ++ "=" ++ castToString other kv.2).data <:+:
      (ContextData.stringLoop other rest output).data := by
  induction rest generalizing output with
  | nil => simp at h
  | cons e rest ih =>
    obtain ⟨k, v⟩ := e
    unfold ContextData.stringLoop
    rcases List.mem_cons.mp h with h1 | h1
    · subst h1
      refine List.IsInfix.trans ?_ (stringLoop_extends other rest _).isInfix
      apply List.IsSuffix.isInfix
      split
      · exact ⟨(output ++ " ").data, by simp [String.data_append]⟩
      · exact ⟨output.data, by simp [String.data_append]⟩
    · exact ih _ h1

theorem String_contains (other : Value → String) (c : ContextData) (kv : String × Value)
    (h : kv ∈ c) :
    (kv.1 ++ "=" ++ castToString other kv.2).data <:+: (ContextData.String other c).data := by
  cases c with
  | nil => simp at h
  | cons e rest =>
    have he : ContextData.IsEmpty (e :: rest) = false := rfl
    unfold ContextData.String
    rw [he]
    simp only [Bool.false_eq_true, if_false]
    exact stringLoop_contains other (e :: rest) "" kv h

/-- Claim C17, amended: the rendering depends on the carrier's key/value
contents and on the order in which the map iteration visits the entries. For
two visiting orders `c1` and `c2` of one carrier: both renderings contain
`key + "=" + stringified value` of every entry; each rendering is the entries
in its own visiting order joined by one space, whenever the entry visited
first has a non-empty key or a value that does not print as the empty
string; and the two renderings are the same string when the carrier has at
most one entry. -/
theorem String_under_visiting_orders (other : Value → String) (c1 c2 : ContextData)
    (hp : c1.Perm c2) :
    (∀ kv ∈ c1,
      (kv.1 ++ "=" ++ castToString other kv.2).data <:+: (ContextData.String other c1).data ∧
      (kv.1 ++ "=" ++ castToString other kv.2).data <:+: (ContextData.String other c2).data) ∧
    (∀ k v rest, c1 = (k, v) :: rest → (k ≠ "" ∨ castToString other v ≠ "") →
      ContextData.String other c1 = joinedEntries other c1) ∧
    (∀ k v rest, c2 = (k, v) :: rest → (k ≠ "" ∨ castToString other v ≠ "") →
      ContextData.String other c2 = joinedEntries other c2) ∧
    (c1.length ≤ 1 → ContextData.String other c1 = ContextData.String other c2) := by
  refine ⟨fun kv hkv => ⟨String_contains other c1 kv hkv,
    String_contains other c2 kv (hp.mem_iff.mp hkv)⟩, ?_, ?_, ?_⟩
  · intro k v rest he hne
    rw [he]
    exact String_eq_joinedEntries other k v rest hne
  · intro k v rest he hne
    rw [he]
    exact String_eq_joinedEntries other k v rest hne
  · intro hl
    have : c1 = c2 := by
      cases c1 with
      | nil => exact hp.nil_eq
      | cons a t =>
        cases t with
        | nil => exact hp.singleton_eq
        | cons b u => simp at hl
    rw [this]

/-- An instance of the amended claim C17: the two visiting orders of the
carrier with the entries `k1` and `k2`. -/
theorem String_under_visiting_orders_witness :
    twoEntries.Perm twoEntriesSwapped ∧
    (∀ kv ∈ twoEntries,
      (kv.1 ++ "=" ++ castToString (fun _ => "") kv.2).data <:+:
        (ContextData.String (fun _ => "") twoEntries).data ∧
      (kv.1 ++ "=" ++ castToString (fun _ => "") kv.2).data <:+:
        (ContextData.String (fun _ => "") twoEntriesSwapped).data) ∧
    ContextData.String (fun _ => "") twoEntries = joinedEntries (fun _ => "") twoEntries ∧
    ContextData.String (fun _ => "") twoEntriesSwapped =
      joinedEntries (fun _ => "") twoEntriesSwapped :=
  ⟨List.Perm.swap _ _ _,
    (String_under_visiting_orders (fun _ => "") twoEntries twoEntriesSwapped
      (List.Perm.swap _ _ _)).1,
    (String_under_visiting_orders (fun _ => "") twoEntries twoEntriesSwapped
      (List.Perm.swap _ _ _)).2.1 "k1" (.str "v1") [("k2", .str "v2")] rfl (Or.inl (by decide)),
    (String_under_visiting_orders (fun _ => "") twoEntries twoEntriesSwapped
      (List.Perm.swap _ _ _)).2.2.1 "k2" (.str "v2") [("k1", .str "v1")] rfl
      (Or.inl (by decide))⟩

end CloudokyoLog
